import Mathlib

/-!
Shallow embedding of the clustering-accuracy evaluation core of
`src/baseline/run_and_compare.py` (functions `accuracy_metrics`,
`purity_metric`, `collapse_pure_clusters`), together with proofs and
refutations of the specification's claims about it.

Labels are Python strings, modelled as `String`.  Python dict/Counter
structures keyed by labels are modelled by iterating over `List.dedup`
of the underlying label list (one visit per distinct key, the grouping
is by value equality, exactly as a Python dict keyed by strings).
Python float arithmetic on the metric values is modelled exactly over `ℚ`.
-/

namespace LogParser

/-- Embeds `comb2 = lambda n: 0 if n < 2 else n * (n - 1) // 2` (line 50). -/
def comb2 (n : ℕ) : ℕ := if n < 2 then 0 else n * (n - 1) / 2

/-- Embeds `sum(comb2(c) for c in Counter(l).values())`: the number of unordered
index pairs of `l` sharing a label (`real_pairs` for `l = truth`,
`parsed_pairs` for `l = pred`, lines 52-56). -/
def pairsOf (l : List String) : ℕ :=
  (l.dedup.map (fun x => comb2 (l.count x))).sum

/-- The values of `vals` at the positions where `keys` carries label `k`,
in order.  This is the common grouping step behind `idx_by_pred` +
`truth[i]` lookups (lines 58-65, with `keys = pred`, `vals = truth`),
`base_to_other` in `purity_metric` (lines 81-84) and `gt_by_pred` in
`collapse_pure_clusters` (lines 97-100).  As in the Python (`zip`, or
`enumerate(pred)` followed by `truth[i]`), positions beyond the shorter
list contribute nothing. -/
def fiberList (keys vals : List String) (k : String) : List String :=
  ((keys.zip vals).filter (fun x => x.1 = k)).map Prod.snd

/-- Embeds `accurate_pairs` accumulated over the groups of `idx_by_pred`
(lines 62-70): for each predicted label, the pair count of the multiset
of ground-truth labels inside that group. -/
def accuratePairs (truth pred : List String) : ℕ :=
  (pred.dedup.map (fun p => pairsOf (fiberList pred truth p))).sum

/-- The contribution of one predicted group to `accurate_events`
(lines 66-69): its size, when its ground-truth labels are all one label
`g` and the group size equals `truth_counts.get(g, 0)`; else 0.
`len(idxs)` is `pred.count p` and `gt_counts` has exactly one key iff
`(fiberList pred truth p).dedup = [g]`. -/
def eventContrib (truth pred : List String) (p : String) : ℕ :=
  match (fiberList pred truth p).dedup with
  | [g] => if pred.count p = truth.count g then pred.count p else 0
  | _ => 0

/-- Embeds `accurate_events` (lines 63-69). -/
def accurateEvents (truth pred : List String) : ℕ :=
  (pred.dedup.map (eventContrib truth pred)).sum

/-- The record returned by `accuracy_metrics` (line 76). -/
structure Metrics where
  GA : ℚ
  GA_precision : ℚ
  GA_recall : ℚ
  PA : ℚ
deriving DecidableEq, Repr

/-- Embeds `accuracy_metrics(truth, pred)` (lines 48-76), float arithmetic
modelled exactly over `ℚ`. -/
def accuracy_metrics (truth pred : List String) : Metrics :=
  let real_pairs := pairsOf truth
  let parsed_pairs := pairsOf pred
  let ap := accuratePairs truth pred
  let precision : ℚ := if parsed_pairs = 0 then 0 else (ap : ℚ) / (parsed_pairs : ℚ)
  let recl : ℚ := if real_pairs = 0 then 0 else (ap : ℚ) / (real_pairs : ℚ)
  let f1 : ℚ :=
    if precision = 0 ∧ recl = 0 then 0
    else 2 * precision * recl / (precision + recl)
  let pa : ℚ :=
    if truth.length = 0 then 0 else (accurateEvents truth pred : ℚ) / (truth.length : ℚ)
  ⟨f1, precision, recl, pa⟩

/-- Embeds `max(counts.values()) if counts else 0` for the multiset `l`
(line 89): the count of the most frequent element of `l`. -/
def topOf (l : List String) : ℕ :=
  (l.dedup.map (fun o => l.count o)).foldr max 0

/-- Embeds `purity_metric(base_ids, other_ids)` (lines 79-92).  `base_to_other`
groups the zipped pairs by base label; `total_sum` adds each group's
size, `top_sum` each group's dominant count.  Labels of `base_ids`
beyond the zipped range have empty groups and add 0 to both sums,
matching the Python where they are simply absent keys. -/
def purity_metric (base_ids other_ids : List String) : ℚ :=
  let total_sum := (base_ids.dedup.map (fun b => (fiberList base_ids other_ids b).length)).sum
  let top_sum := (base_ids.dedup.map (fun b => topOf (fiberList base_ids other_ids b))).sum
  if total_sum = 0 then 0 else (top_sum : ℚ) / (total_sum : ℚ)

/-- Embeds `gt_by_pred.get(p, set())` (lines 97-100, 105): the set of distinct
ground-truth labels co-occurring with predicted label `p`. -/
def gtSetOf (truth pred : List String) (p : String) : List String :=
  (fiberList pred truth p).dedup

/-- Embeds `mapping[p]` (lines 102-112): a pure predicted label (exactly one
ground-truth label `g` in its cluster) is replaced by
the tag string `__PURE__#` followed by `g`; any other label is kept. -/
def collapseLabel (truth pred : List String) (p : String) : String :=
  match gtSetOf truth pred p with
  | [g] => "__PURE__#" ++ g
  | _ => p

/-- Embeds `collapse_pure_clusters(truth, pred)` (lines 95-116):
`merged_pred = [mapping[p] for p in pred]` and
`pure_coverage = sum(pure_mask) / len(pred)` (0 when `pred` is empty),
where `pure_mask` holds one `True` per position whose label is pure. -/
def collapse_pure_clusters (truth pred : List String) : List String × ℚ :=
  (pred.map (collapseLabel truth pred),
   if pred.length = 0 then 0
   else ((pred.countP (fun p => (gtSetOf truth pred p).length = 1)) : ℚ) / (pred.length : ℚ))

/-! ### Arithmetic facts about `comb2` -/

theorem two_mul_comb2 (n : ℕ) : 2 * comb2 n = n * (n - 1) := by
  unfold comb2
  by_cases h : n < 2
  · interval_cases n <;> simp
  · rw [if_neg h]
    refine Nat.mul_div_cancel' ?_
    rcases n with _ | m
    · simp
    · rw [Nat.succ_sub_one, Nat.mul_comm]
      exact (Nat.even_mul_succ_self m).two_dvd

theorem comb2_add_le (a b : ℕ) : comb2 a + comb2 b ≤ comb2 (a + b) := by
  have ha := two_mul_comb2 a
  have hb := two_mul_comb2 b
  have hab := two_mul_comb2 (a + b)
  have key : a * (a - 1) + b * (b - 1) ≤ (a + b) * (a + b - 1) := by
    have h1 : a * (a - 1) ≤ a * (a + b - 1) := Nat.mul_le_mul_left _ (by omega)
    have h2 : b * (b - 1) ≤ b * (a + b - 1) := Nat.mul_le_mul_left _ (by omega)
    calc a * (a - 1) + b * (b - 1) ≤ a * (a + b - 1) + b * (a + b - 1) := Nat.add_le_add h1 h2
      _ = (a + b) * (a + b - 1) := (Nat.add_mul a b _).symm
  omega

theorem comb2_mono {a b : ℕ} (h : a ≤ b) : comb2 a ≤ comb2 b := by
  have ha := two_mul_comb2 a
  have hb := two_mul_comb2 b
  have key : a * (a - 1) ≤ b * (b - 1) := Nat.mul_le_mul h (by omega)
  omega

theorem sum_map_comb2_le (ns : List ℕ) : (ns.map comb2).sum ≤ comb2 ns.sum := by
  induction ns with
  | nil => simp
  | cons a t ih =>
    simp only [List.map_cons, List.sum_cons]
    calc comb2 a + (t.map comb2).sum ≤ comb2 a + comb2 t.sum := Nat.add_le_add_left ih _
      _ ≤ comb2 (a + t.sum) := comb2_add_le _ _

/-! ### Sums over `dedup` as `Finset` sums -/

theorem sum_map_dedup_eq_sum_toFinset {α : Type} [DecidableEq α] (l : List α) (f : α → ℕ) :
    (l.dedup.map f).sum = ∑ x ∈ l.toFinset, f x := by
  simp [Finset.sum, List.toFinset, Multiset.toFinset, Multiset.coe_dedup]

theorem pairsOf_le_comb2_length (l : List String) : pairsOf l ≤ comb2 l.length := by
  have h : pairsOf l = ((l.dedup.map (fun x => l.count x)).map comb2).sum := by
    rw [List.map_map]; rfl
  rw [h]
  calc ((l.dedup.map (fun x => l.count x)).map comb2).sum
      ≤ comb2 (l.dedup.map (fun x => l.count x)).sum := sum_map_comb2_le _
    _ = comb2 l.length := by rw [List.sum_map_count_dedup_eq_length]

/-! ### `dedup` singleton characterisation -/

theorem dedup_eq_singleton_iff {α : Type} [DecidableEq α] {l : List α} {a : α} :
    l.dedup = [a] ↔ l ≠ [] ∧ ∀ x ∈ l, x = a := by
  constructor
  · intro h
    refine ⟨fun hl => by simp [hl] at h, fun x hx => ?_⟩
    have hm : x ∈ l.dedup := List.mem_dedup.2 hx
    rw [h] at hm
    simpa using hm
  · rintro ⟨hne, hall⟩
    induction l with
    | nil => exact absurd rfl hne
    | cons b t ih =>
      have hb : b = a := hall b (List.mem_cons_self b t)
      subst hb
      by_cases ht : t = []
      · subst ht; simp
      · have hd := ih ht (fun x hx => hall x (List.mem_cons_of_mem _ hx))
        have hmem : b ∈ t := by
          rcases List.exists_mem_of_ne_nil t ht with ⟨x, hx⟩
          have hx' := hall x (List.mem_cons_of_mem _ hx)
          rwa [hx'] at hx
        rw [List.dedup_cons_of_mem hmem, hd]

/-! ### Counting in label fibers -/

theorem count_filter_map_snd (zs : List (String × String)) (k v : String) :
    ((zs.filter (fun x => x.1 = k)).map Prod.snd).count v = zs.count (k, v) := by
  induction zs with
  | nil => rfl
  | cons x t ih =>
    by_cases h1 : x.1 = k <;> by_cases h2 : x.2 = v <;>
      simp [List.filter_cons, List.count_cons, h1, h2, Prod.ext_iff, ih]

theorem count_fiberList (keys vals : List String) (k v : String) :
    (fiberList keys vals k).count v = (keys.zip vals).count (k, v) :=
  count_filter_map_snd _ _ _

theorem mem_fiberList {keys vals : List String} {k v : String} :
    v ∈ fiberList keys vals k ↔ (k, v) ∈ keys.zip vals := by
  unfold fiberList
  constructor
  · intro hv
    rcases List.mem_map.1 hv with ⟨x, hx, hxv⟩
    rcases List.mem_filter.1 hx with ⟨hxm, hxk⟩
    have hk : x.1 = k := by simpa using hxk
    rcases x with ⟨a, b⟩
    cases hk
    cases hxv
    exact hxm
  · intro hm
    exact List.mem_map.2 ⟨(k, v), List.mem_filter.2 ⟨hm, by simp⟩, rfl⟩

theorem length_fiberList (keys vals : List String) (k : String) :
    (fiberList keys vals k).length = (keys.zip vals).countP (fun x => x.1 = k) := by
  unfold fiberList
  rw [List.length_map, ← List.countP_eq_length_filter]

theorem countP_zip_fst (k : String) :
    ∀ (keys vals : List String), keys.length ≤ vals.length →
      (keys.zip vals).countP (fun x => x.1 = k) = keys.count k
  | [], _, _ => by simp
  | a :: ks, [], h => by simp at h
  | a :: ks, b :: vs, h => by
    simp only [List.zip_cons_cons, List.countP_cons, List.count_cons,
      countP_zip_fst k ks vs (by simpa using h)]
    by_cases hak : a = k <;> simp [hak]

theorem length_fiberList_eq_count {keys vals : List String} {k : String}
    (h : keys.length ≤ vals.length) :
    (fiberList keys vals k).length = keys.count k := by
  rw [length_fiberList, countP_zip_fst k keys vals h]

/-! ### Zip truncation and self-zip -/

theorem zip_take_right {α β : Type} :
    ∀ (l₁ : List α) (l₂ : List β), l₁.zip l₂ = l₁.zip (l₂.take l₁.length)
  | [], _ => by simp
  | _ :: _, [] => by simp
  | a :: t₁, b :: t₂ => by
    simp only [List.zip_cons_cons, List.length_cons, List.take_succ_cons]
    rw [← zip_take_right t₁ t₂]

theorem fiberList_self (a : List String) (b : String) :
    fiberList a a b = List.replicate (a.count b) b := by
  induction a with
  | nil => rfl
  | cons x t ih =>
    unfold fiberList at ih ⊢
    by_cases hx : x = b <;>
      simp [List.zip_cons_cons, List.filter_cons, List.count_cons, hx, ih,
        List.replicate_succ]

theorem dedup_replicate (b : String) (c : ℕ) (hc : c ≠ 0) :
    (List.replicate c b).dedup = [b] := by
  rw [dedup_eq_singleton_iff]
  exact ⟨by simp [hc], fun x hx => List.eq_of_mem_replicate hx⟩

theorem topOf_replicate (b : String) (c : ℕ) : topOf (List.replicate c b) = c := by
  rcases Nat.eq_zero_or_pos c with hc | hc
  · subst hc; rfl
  · unfold topOf
    rw [dedup_replicate b c (Nat.pos_iff_ne_zero.1 hc)]
    simp [List.count_replicate]

theorem pairsOf_replicate (b : String) (c : ℕ) : pairsOf (List.replicate c b) = comb2 c := by
  rcases Nat.eq_zero_or_pos c with hc | hc
  · subst hc; rfl
  · unfold pairsOf
    rw [dedup_replicate b c (Nat.pos_iff_ne_zero.1 hc)]
    simp [List.count_replicate]

/-! ### Metrics on a sequence compared with itself -/

theorem accuratePairs_self (x : List String) : accuratePairs x x = pairsOf x := by
  have h : x.dedup.map (fun p => pairsOf (fiberList x x p)) =
      x.dedup.map (fun p => comb2 (x.count p)) :=
    List.map_congr_left fun p _ => by rw [fiberList_self, pairsOf_replicate]
  unfold accuratePairs
  rw [h]
  rfl

theorem accurateEvents_self (x : List String) : accurateEvents x x = x.length := by
  unfold accurateEvents
  rw [← List.sum_map_count_dedup_eq_length x]
  congr 1
  refine List.map_congr_left (fun p hp => ?_)
  have hpos : x.count p ≠ 0 :=
    Nat.pos_iff_ne_zero.1 (List.count_pos_iff.2 (List.mem_dedup.1 hp))
  unfold eventContrib
  rw [fiberList_self, dedup_replicate p _ hpos]
  simp

theorem collapse_fst_length (truth pred : List String) :
    (collapse_pure_clusters truth pred).1.length = pred.length := by
  simp [collapse_pure_clusters]

/-! ## Claim theorems -/

/-- Claim C1, counterexample: for the non-empty sequence `x = ["A"]`,
`accuracy_metrics(x, x)` returns GA = 0, not 1: `real_pairs` and
`parsed_pairs` are both 0, so precision and recall are 0 by the
zero-denominator convention and the F1 guard returns 0. -/
theorem identity_GA_zero_on_singleton : (accuracy_metrics ["A"] ["A"]).GA = 0 := by
  have h1 : pairsOf ["A"] = 0 := by decide
  have h2 : accuratePairs ["A"] ["A"] = 0 := by decide
  simp only [accuracy_metrics, h1, h2]
  norm_num

/-- Claim C1, amended: for every non-empty `x`, `accuracy_metrics(x, x)`
returns PA = 1.0, and it returns GA = 1.0 (with precision and recall 1.0)
whenever `x` has at least one repeated label (`real_pairs > 0`); when no
label repeats, GA is 0 by the zero-denominator convention. -/
theorem identity_metrics (x : List String) (hx : x ≠ []) :
    (accuracy_metrics x x).PA = 1 ∧
    (pairsOf x ≠ 0 →
      (accuracy_metrics x x).GA = 1 ∧ (accuracy_metrics x x).GA_precision = 1 ∧
        (accuracy_metrics x x).GA_recall = 1) := by
  have hlen : x.length ≠ 0 := fun h0 => hx (List.length_eq_zero.1 h0)
  have hlenq : (x.length : ℚ) ≠ 0 := by exact_mod_cast hlen
  have hev := accurateEvents_self x
  have hap := accuratePairs_self x
  constructor
  · simp only [accuracy_metrics, hev, hap]
    rw [if_neg hlen]
    exact div_self hlenq
  · intro hp
    have hpq : ((pairsOf x : ℚ)) ≠ 0 := by exact_mod_cast hp
    have hone : ((pairsOf x : ℚ)) / (pairsOf x : ℚ) = 1 := div_self hpq
    simp only [accuracy_metrics, hev, hap, if_neg hp, hone]
    norm_num

/-- Claim C1, witness for the amended theorem at `x = ["A","A"]`. -/
theorem identity_metrics_witness :
    (accuracy_metrics ["A", "A"] ["A", "A"]).PA = 1 ∧
    (accuracy_metrics ["A", "A"] ["A", "A"]).GA = 1 :=
  ⟨(identity_metrics ["A", "A"] (by decide)).1,
   ((identity_metrics ["A", "A"] (by decide)).2 (by decide)).1⟩

/-- Claim C2, counterexample: called directly with `len(truth) ≠ len(pred)`
the core operations do not fail.  `purity_metric(["A","B"], ["X"])`
returns 1 — the value computed on the zip-truncated prefix
`(["A"], ["X"])` — `collapse_pure_clusters(["A","B"], ["X"])` returns a
merged prediction, and `accuracy_metrics(["A","B"], ["X"])` returns
PA = 1/2, all without any precondition failure. -/
theorem core_ops_total_on_length_mismatch :
    purity_metric ["A", "B"] ["X"] = 1 ∧
    purity_metric ["A", "B"] ["X"] = purity_metric ["A"] ["X"] ∧
    (collapse_pure_clusters ["A", "B"] ["X"]).1 = ["__PURE__#A"] ∧
    (accuracy_metrics ["A", "B"] ["X"]).PA = 1 / 2 := by
  have ht : ((["A", "B"] : List String).dedup.map
      (fun b => (fiberList ["A", "B"] ["X"] b).length)).sum = 1 := by decide
  have hm : ((["A", "B"] : List String).dedup.map
      (fun b => topOf (fiberList ["A", "B"] ["X"] b))).sum = 1 := by decide
  have ht1 : ((["A"] : List String).dedup.map
      (fun b => (fiberList ["A"] ["X"] b).length)).sum = 1 := by decide
  have hm1 : ((["A"] : List String).dedup.map
      (fun b => topOf (fiberList ["A"] ["X"] b))).sum = 1 := by decide
  have hc : (collapse_pure_clusters ["A", "B"] ["X"]).1 = ["__PURE__#A"] := by decide
  have he : accurateEvents ["A", "B"] ["X"] = 1 := by decide
  refine ⟨?_, ?_, hc, ?_⟩
  · simp only [purity_metric, ht, hm]; norm_num
  · simp only [purity_metric, ht, hm, ht1, hm1]
  · simp only [accuracy_metrics, he]; norm_num

/-- Claim C2, amended: none of the three core operations validates the
`len(truth) == len(pred)` precondition itself (the check lives in the
excluded caller `run_all`, line 223).  `purity_metric` and
`collapse_pure_clusters` silently truncate the longer sequence to the
`zip` of the two, and `accuracy_metrics` called with `truth` longer than
`pred` silently computes a result from the prefix alignment. -/
theorem length_mismatch_truncation :
    (∀ base other : List String,
      purity_metric base other = purity_metric base (other.take base.length)) ∧
    (∀ truth pred : List String,
      collapse_pure_clusters truth pred =
        collapse_pure_clusters (truth.take pred.length) pred) ∧
    accuracy_metrics ["A", "B"] ["X"] = ⟨0, 0, 0, 1 / 2⟩ := by
  refine ⟨fun base other => ?_, fun truth pred => ?_, ?_⟩
  · unfold purity_metric fiberList
    rw [← zip_take_right]
  · unfold collapse_pure_clusters collapseLabel gtSetOf fiberList
    rw [← zip_take_right]
  · have h1 : pairsOf ["A", "B"] = 0 := by decide
    have h2 : pairsOf ["X"] = 0 := by decide
    have h3 : accuratePairs ["A", "B"] ["X"] = 0 := by decide
    have he : accurateEvents ["A", "B"] ["X"] = 1 := by decide
    simp only [accuracy_metrics, h1, h2, h3, he]
    norm_num

/-- Claim C4: the spec's concrete scenario, with the float arithmetic
carried out exactly: `accuracy_metrics` returns GA = 2/3,
precision = 1.0, recall = 0.5, PA = 0.4; `collapse_pure_clusters` merges
all three predicted clusters into ground-truth-keyed labels with
`pure_coverage = 1.0`, and the recomputed PA on the merged prediction is
1.0. -/
theorem concrete_scenario_metrics :
    accuracy_metrics ["A", "A", "B", "B", "B"] ["X", "X", "Y", "Y", "Z"] =
      ⟨2 / 3, 1, 1 / 2, 2 / 5⟩ ∧
    collapse_pure_clusters ["A", "A", "B", "B", "B"] ["X", "X", "Y", "Y", "Z"] =
      (["__PURE__#A", "__PURE__#A", "__PURE__#B", "__PURE__#B", "__PURE__#B"], 1) ∧
    (accuracy_metrics ["A", "A", "B", "B", "B"]
      (collapse_pure_clusters ["A", "A", "B", "B", "B"] ["X", "X", "Y", "Y", "Z"]).1).PA =
      1 := by
  have h1 : pairsOf ["A", "A", "B", "B", "B"] = 4 := by decide
  have h2 : pairsOf ["X", "X", "Y", "Y", "Z"] = 2 := by decide
  have h3 : accuratePairs ["A", "A", "B", "B", "B"] ["X", "X", "Y", "Y", "Z"] = 2 := by decide
  have h4 : accurateEvents ["A", "A", "B", "B", "B"] ["X", "X", "Y", "Y", "Z"] = 2 := by decide
  have hc1 : (collapse_pure_clusters ["A", "A", "B", "B", "B"] ["X", "X", "Y", "Y", "Z"]).1 =
      ["__PURE__#A", "__PURE__#A", "__PURE__#B", "__PURE__#B", "__PURE__#B"] := by decide
  have hc2 : (["X", "X", "Y", "Y", "Z"] : List String).countP
      (fun p => (gtSetOf ["A", "A", "B", "B", "B"] ["X", "X", "Y", "Y", "Z"] p).length = 1) =
      5 := by decide
  have h5 : accurateEvents ["A", "A", "B", "B", "B"]
      ["__PURE__#A", "__PURE__#A", "__PURE__#B", "__PURE__#B", "__PURE__#B"] = 5 := by decide
  refine ⟨?_, ?_, ?_⟩
  · simp only [accuracy_metrics, h1, h2, h3, h4]
    norm_num
  · refine Prod.ext hc1 ?_
    simp only [collapse_pure_clusters, hc2]
    norm_num
  · rw [hc1]
    simp only [accuracy_metrics, h5]
    norm_num

/-- Claim C7: empty inputs and zero denominators yield 0 by convention:
`accuracy_metrics([], [])` returns all-zero metrics,
`purity_metric([], [])` returns 0, and in general a zero `parsed_pairs`,
`real_pairs`, `N` or total label count forces the corresponding metric
to 0 (no exception is modelled: every operation is total). -/
theorem degenerate_inputs_zero :
    accuracy_metrics [] [] = ⟨0, 0, 0, 0⟩ ∧
    purity_metric [] [] = 0 ∧
    (∀ truth pred : List String,
      pairsOf pred = 0 → (accuracy_metrics truth pred).GA_precision = 0) ∧
    (∀ truth pred : List String,
      pairsOf truth = 0 → (accuracy_metrics truth pred).GA_recall = 0) ∧
    (∀ truth pred : List String,
      truth.length = 0 → (accuracy_metrics truth pred).PA = 0) ∧
    (∀ base other : List String, base.length = 0 → purity_metric base other = 0) := by
  refine ⟨by decide, by decide, fun truth pred h => ?_, fun truth pred h => ?_,
    fun truth pred h => ?_, fun base other h => ?_⟩
  · simp only [accuracy_metrics, if_pos h]
  · simp only [accuracy_metrics, if_pos h]
  · simp only [accuracy_metrics, if_pos h]
  · have hb : base = [] := List.length_eq_zero.1 h
    subst hb
    rfl

/-- Claim C7, witness at concrete degenerate inputs. -/
theorem degenerate_inputs_zero_witness :
    (accuracy_metrics ["A", "B"] ["X", "Y"]).GA_precision = 0 ∧
    (accuracy_metrics ["A", "B"] ["X", "X"]).GA_recall = 0 ∧
    (accuracy_metrics [] ["X"]).PA = 0 ∧
    purity_metric [] ["X"] = 0 :=
  ⟨degenerate_inputs_zero.2.2.1 ["A", "B"] ["X", "Y"] (by decide),
   degenerate_inputs_zero.2.2.2.1 ["A", "B"] ["X", "X"] (by decide),
   degenerate_inputs_zero.2.2.2.2.1 [] ["X"] (by decide),
   degenerate_inputs_zero.2.2.2.2.2 [] ["X"] (by decide)⟩

/-- Claim C9, counterexample: `purity_metric(a, a) == 1.0` fails for
`a = []` (no non-emptiness restriction is stated in the claim):
`total_sum` is 0, so the function returns 0. -/
theorem purity_identity_empty : purity_metric [] [] = 0 := by decide

/-- Claim C9, amended: `purity_metric(a, a) = 1.0` for every non-empty
`a` (for `a = []` the zero-denominator convention yields 0). -/
theorem purity_identity_of_ne_nil (a : List String) (h : a ≠ []) :
    purity_metric a a = 1 := by
  have htot : (a.dedup.map (fun b => (fiberList a a b).length)).sum = a.length := by
    rw [← List.sum_map_count_dedup_eq_length a]
    exact congrArg _ (List.map_congr_left fun b _ => by
      rw [fiberList_self, List.length_replicate])
  have htop : (a.dedup.map (fun b => topOf (fiberList a a b))).sum = a.length := by
    rw [← List.sum_map_count_dedup_eq_length a]
    exact congrArg _ (List.map_congr_left fun b _ => by rw [fiberList_self, topOf_replicate])
  have hlen : a.length ≠ 0 := fun h0 => h (List.length_eq_zero.1 h0)
  simp only [purity_metric, htot, htop, if_neg hlen]
  exact div_self (by exact_mod_cast hlen)

/-- Claim C9, witness for the amended theorem at `a = ["A"]`. -/
theorem purity_identity_witness : purity_metric ["A"] ["A"] = 1 :=
  purity_identity_of_ne_nil ["A"] (by decide)

/-- Claim C10: `collapse_pure_clusters` returns a `merged_pred` of the
same length as `pred`, and the transform is a per-label relabeling: two
positions carrying the same predicted label carry the same merged label,
so collapsing only coarsens the predicted partition. -/
theorem collapse_relabeling (truth pred : List String)
    (_h : truth.length = pred.length) :
    (collapse_pure_clusters truth pred).1.length = pred.length ∧
    ∀ i j : Fin pred.length, pred.get i = pred.get j →
      (collapse_pure_clusters truth pred).1.get
          (Fin.cast (collapse_fst_length truth pred).symm i) =
        (collapse_pure_clusters truth pred).1.get
          (Fin.cast (collapse_fst_length truth pred).symm j) := by
  refine ⟨collapse_fst_length truth pred, fun i j hij => ?_⟩
  simp only [collapse_pure_clusters, List.get_eq_getElem, Fin.coe_cast, List.getElem_map]
  rw [List.get_eq_getElem, List.get_eq_getElem] at hij
  rw [hij]

/-- Claim C10, witness at a concrete input with a repeated predicted
label. -/
theorem collapse_relabeling_witness :
    (collapse_pure_clusters ["A", "B"] ["X", "X"]).1.length = 2 ∧
    (collapse_pure_clusters ["A", "B"] ["X", "X"]).1.get
        (Fin.cast (collapse_fst_length ["A", "B"] ["X", "X"]).symm ⟨0, by decide⟩) =
      (collapse_pure_clusters ["A", "B"] ["X", "X"]).1.get
        (Fin.cast (collapse_fst_length ["A", "B"] ["X", "X"]).symm ⟨1, by decide⟩) :=
  ⟨(collapse_relabeling ["A", "B"] ["X", "X"] (by decide)).1,
   (collapse_relabeling ["A", "B"] ["X", "X"] (by decide)).2 ⟨0, by decide⟩ ⟨1, by decide⟩
     (by decide)⟩

/-! ### String tag freshness -/

theorem ne_tag_of_short {q : String} (hq : q.length < 9) (s : String) :
    q ≠ "__PURE__#" ++ s := by
  intro h
  have hL := congrArg String.length h
  rw [String.length_append] at hL
  have h9 : ("__PURE__#" : String).length = 9 := by decide
  rw [h9] at hL
  omega

theorem tag_inj {g₁ g₂ : String} (h : "__PURE__#" ++ g₁ = "__PURE__#" ++ g₂) :
    g₁ = g₂ := by
  have hd := congrArg String.data h
  rw [String.data_append, String.data_append] at hd
  exact String.ext (List.append_cancel_left hd)

/-- Claim C3, counterexample: with `truth = ["A","A","B","C"]` and
`pred = ["M","__PURE__#A","__PURE__#A","__PURE__#A"]`, the pure
predicted cluster `M` is relabeled to `"__PURE__#A"`, which is a literal
predicted label — the label of the mixed cluster left unchanged in the
output — so the canonical merged label collides with a genuine predicted
id, and the whole merged sequence is one indistinguishable cluster. -/
theorem merged_label_collision :
    gtSetOf ["A", "A", "B", "C"] ["M", "__PURE__#A", "__PURE__#A", "__PURE__#A"] "M" =
      ["A"] ∧
    collapseLabel ["A", "A", "B", "C"] ["M", "__PURE__#A", "__PURE__#A", "__PURE__#A"] "M" =
      "__PURE__#A" ∧
    "__PURE__#A" ∈ (["M", "__PURE__#A", "__PURE__#A", "__PURE__#A"] : List String) ∧
    collapseLabel ["A", "A", "B", "C"] ["M", "__PURE__#A", "__PURE__#A", "__PURE__#A"]
      "__PURE__#A" = "__PURE__#A" ∧
    (collapse_pure_clusters ["A", "A", "B", "C"]
        ["M", "__PURE__#A", "__PURE__#A", "__PURE__#A"]).1 =
      ["__PURE__#A", "__PURE__#A", "__PURE__#A", "__PURE__#A"] := by
  refine ⟨by decide, by decide, by decide, by decide, by decide⟩

/-- Claim C3, amended: the merged labels `"__PURE__#" ++ g` are distinct
from every literal predicted and ground-truth label provided no input
label itself starts with the `"__PURE__#"` discriminator; without that
proviso collisions are possible (see the counterexample). -/
theorem merged_label_fresh (truth pred : List String)
    (_hlen : truth.length = pred.length)
    (hpred : ∀ q ∈ pred, ∀ s : String, q ≠ "__PURE__#" ++ s)
    (htruth : ∀ q ∈ truth, ∀ s : String, q ≠ "__PURE__#" ++ s) :
    ∀ p ∈ pred, (gtSetOf truth pred p).length = 1 →
      collapseLabel truth pred p ∉ pred ∧ collapseLabel truth pred p ∉ truth := by
  intro p _hp hpure
  rcases List.length_eq_one.1 hpure with ⟨g, hg⟩
  have hcl : collapseLabel truth pred p = "__PURE__#" ++ g := by
    unfold collapseLabel
    rw [hg]
  rw [hcl]
  exact ⟨fun hmem => hpred _ hmem g rfl, fun hmem => htruth _ hmem g rfl⟩

/-- Claim C3, witness for the amended theorem at
`truth = ["A","A"]`, `pred = ["X","X"]` (labels shorter than the
9-character discriminator cannot carry it as a prefix). -/
theorem merged_label_fresh_witness :
    collapseLabel ["A", "A"] ["X", "X"] "X" ∉ (["X", "X"] : List String) ∧
    collapseLabel ["A", "A"] ["X", "X"] "X" ∉ (["A", "A"] : List String) :=
  merged_label_fresh ["A", "A"] ["X", "X"] rfl
    (fun q hq => ne_tag_of_short (by fin_cases hq <;> decide))
    (fun q hq => ne_tag_of_short (by fin_cases hq <;> decide))
    "X" (by decide) (by decide)

/-! ### `accuratePairs` as a sum over the zipped pair multiset -/

theorem toFinset_list_map {α β : Type} [DecidableEq α] [DecidableEq β]
    (f : α → β) (l : List α) : (l.map f).toFinset = l.toFinset.image f := by
  ext x
  simp

theorem mem_toFinset_fst {keys vals : List String} {x : String × String}
    (hx : x ∈ (keys.zip vals).toFinset) : x.1 ∈ keys.toFinset := by
  rcases x with ⟨a, b⟩
  exact List.mem_toFinset.2 (List.of_mem_zip (List.mem_toFinset.1 hx)).1

theorem pairsOf_fiberList_eq (keys vals : List String) (k : String) :
    pairsOf (fiberList keys vals k) =
      ∑ x ∈ (keys.zip vals).toFinset.filter (fun x => x.1 = k),
        comb2 ((keys.zip vals).count x) := by
  unfold pairsOf
  rw [sum_map_dedup_eq_sum_toFinset]
  refine Finset.sum_bij (fun t _ => (k, t)) ?_ ?_ ?_ ?_
  · intro t ht
    refine Finset.mem_filter.2 ⟨List.mem_toFinset.2 ?_, rfl⟩
    exact mem_fiberList.1 (List.mem_toFinset.1 ht)
  · intro t₁ _ t₂ _ h
    exact congrArg Prod.snd h
  · rintro ⟨a, b⟩ hb
    rcases Finset.mem_filter.1 hb with ⟨hmem, hfst⟩
    have ha : a = k := by simpa using hfst
    subst ha
    exact ⟨b, List.mem_toFinset.2 (mem_fiberList.2 (List.mem_toFinset.1 hmem)), rfl⟩
  · intro t _
    rw [count_fiberList]

theorem accuratePairs_eq_sum_zip (truth pred : List String) :
    accuratePairs truth pred =
      ∑ x ∈ (pred.zip truth).toFinset, comb2 ((pred.zip truth).count x) := by
  unfold accuratePairs
  rw [sum_map_dedup_eq_sum_toFinset]
  rw [Finset.sum_congr rfl (fun p _ => pairsOf_fiberList_eq pred truth p)]
  exact Finset.sum_fiberwise_of_maps_to (fun x hx => mem_toFinset_fst hx) _

theorem count_map_swap (zs : List (String × String)) (x : String × String) :
    (zs.map Prod.swap).count x.swap = zs.count x := by
  induction zs with
  | nil => rfl
  | cons y t ih =>
    simp only [List.map_cons, List.count_cons, ih, beq_iff_eq]
    by_cases h : y = x
    · subst h; simp
    · rw [if_neg h, if_neg (fun hc => h (Prod.swap_injective hc))]

theorem accuratePairs_comm (truth pred : List String) :
    accuratePairs truth pred = accuratePairs pred truth := by
  rw [accuratePairs_eq_sum_zip, accuratePairs_eq_sum_zip]
  have hswap : truth.zip pred = (pred.zip truth).map Prod.swap := (List.zip_swap pred truth).symm
  rw [hswap, toFinset_list_map]
  rw [Finset.sum_image (fun x _ y _ h => Prod.swap_injective h)]
  refine Finset.sum_congr rfl (fun x _ => ?_)
  rw [count_map_swap (pred.zip truth) x]

/-- Claim C6: swapping the argument order of `accuracy_metrics` swaps
GA_precision and GA_recall.  `accurate_pairs` is symmetric in the two
labelings (it counts unordered co-clustered pairs of lines), while the
denominator of precision against `(a, b)` and of recall against
`(b, a)` is the same `parsed_pairs` of `b`. -/
theorem precision_recall_swap (a b : List String) (_h : a.length = b.length) :
    (accuracy_metrics a b).GA_precision = (accuracy_metrics b a).GA_recall ∧
    (accuracy_metrics a b).GA_recall = (accuracy_metrics b a).GA_precision := by
  have h1 := accuratePairs_comm a b
  constructor <;> simp only [accuracy_metrics, h1]

/-- Claim C6, witness at `a = ["A","A"]`, `b = ["X","Y"]`. -/
theorem precision_recall_swap_witness :
    (accuracy_metrics ["A", "A"] ["X", "Y"]).GA_precision =
      (accuracy_metrics ["X", "Y"] ["A", "A"]).GA_recall ∧
    (accuracy_metrics ["A", "A"] ["X", "Y"]).GA_recall =
      (accuracy_metrics ["X", "Y"] ["A", "A"]).GA_precision :=
  precision_recall_swap ["A", "A"] ["X", "Y"] rfl

/-! ### Bounds for the C8 range claim -/

theorem foldr_max_le {m : ℕ} : ∀ {ns : List ℕ}, (∀ x ∈ ns, x ≤ m) → ns.foldr max 0 ≤ m
  | [], _ => Nat.zero_le m
  | a :: t, h => by
    simp only [List.foldr_cons]
    exact max_le (h a (List.mem_cons_self a t))
      (foldr_max_le fun x hx => h x (List.mem_cons_of_mem a hx))

theorem topOf_le_length (l : List String) : topOf l ≤ l.length := by
  refine foldr_max_le (fun x hx => ?_)
  rcases List.mem_map.1 hx with ⟨o, _, rfl⟩
  exact List.count_le_length o l

theorem accuratePairs_le_parsedPairs (truth pred : List String)
    (h : pred.length ≤ truth.length) : accuratePairs truth pred ≤ pairsOf pred := by
  unfold accuratePairs pairsOf
  refine List.sum_le_sum (fun p _ => ?_)
  calc pairsOf (fiberList pred truth p)
      ≤ comb2 (fiberList pred truth p).length := pairsOf_le_comb2_length _
    _ = comb2 (pred.count p) := by rw [length_fiberList_eq_count h]

theorem accuratePairs_le_realPairs (truth pred : List String)
    (h : truth.length ≤ pred.length) : accuratePairs truth pred ≤ pairsOf truth := by
  rw [accuratePairs_comm]
  exact accuratePairs_le_parsedPairs pred truth h

theorem eventContrib_le_count (truth pred : List String) (p : String) :
    eventContrib truth pred p ≤ pred.count p := by
  unfold eventContrib
  rcases hd : (fiberList pred truth p).dedup with _ | ⟨g, _ | _⟩
  · simp
  · dsimp only
    split_ifs <;> simp
  · simp

theorem accurateEvents_le_length (truth pred : List String) :
    accurateEvents truth pred ≤ pred.length := by
  unfold accurateEvents
  calc (pred.dedup.map (eventContrib truth pred)).sum
      ≤ (pred.dedup.map (fun p => pred.count p)).sum :=
        List.sum_le_sum (fun p _ => eventContrib_le_count truth pred p)
    _ = pred.length := List.sum_map_count_dedup_eq_length pred

theorem ratio_bounds {a b : ℕ} (h : a ≤ b) :
    0 ≤ (if b = 0 then (0 : ℚ) else (a : ℚ) / (b : ℚ)) ∧
      (if b = 0 then (0 : ℚ) else (a : ℚ) / (b : ℚ)) ≤ 1 := by
  by_cases hb : b = 0
  · rw [if_pos hb]; norm_num
  · rw [if_neg hb]
    have hbq : (0 : ℚ) < (b : ℚ) := by
      exact_mod_cast Nat.pos_of_ne_zero hb
    constructor
    · exact div_nonneg (by positivity) (le_of_lt hbq)
    · rw [div_le_one hbq]
      exact_mod_cast h

theorem f1_bounds {P R : ℚ} (hP0 : 0 ≤ P) (hP1 : P ≤ 1) (hR0 : 0 ≤ R) (hR1 : R ≤ 1) :
    0 ≤ (if P = 0 ∧ R = 0 then (0 : ℚ) else 2 * P * R / (P + R)) ∧
      (if P = 0 ∧ R = 0 then (0 : ℚ) else 2 * P * R / (P + R)) ≤ 1 := by
  by_cases h : P = 0 ∧ R = 0
  · rw [if_pos h]; norm_num
  · rw [if_neg h]
    have hsum : 0 < P + R := by
      rcases (not_and_or.1 h) with hP | hR
      · have : 0 < P := lt_of_le_of_ne hP0 (Ne.symm hP)
        linarith
      · have : 0 < R := lt_of_le_of_ne hR0 (Ne.symm hR)
        linarith
    constructor
    · exact div_nonneg (by positivity) (le_of_lt hsum)
    · rw [div_le_one hsum]
      nlinarith [mul_nonneg hP0 (sub_nonneg.2 hR1), mul_nonneg hR0 (sub_nonneg.2 hP1)]

theorem purity_bounds (base other : List String) :
    0 ≤ purity_metric base other ∧ purity_metric base other ≤ 1 := by
  have hle : (base.dedup.map (fun b => topOf (fiberList base other b))).sum ≤
      (base.dedup.map (fun b => (fiberList base other b).length)).sum :=
    List.sum_le_sum fun b _ => topOf_le_length _
  simp only [purity_metric]
  exact ratio_bounds hle

/-- Claim C8: for equal-length inputs every value produced by the core —
GA, GA_precision, GA_recall and PA from `accuracy_metrics`, the value of
`purity_metric` (in both argument orders), and `pure_coverage` from
`collapse_pure_clusters` — lies in `[0, 1]`. -/
theorem metrics_in_unit_interval (truth pred : List String)
    (h : truth.length = pred.length) :
    (0 ≤ (accuracy_metrics truth pred).GA ∧ (accuracy_metrics truth pred).GA ≤ 1) ∧
    (0 ≤ (accuracy_metrics truth pred).GA_precision ∧
      (accuracy_metrics truth pred).GA_precision ≤ 1) ∧
    (0 ≤ (accuracy_metrics truth pred).GA_recall ∧
      (accuracy_metrics truth pred).GA_recall ≤ 1) ∧
    (0 ≤ (accuracy_metrics truth pred).PA ∧ (accuracy_metrics truth pred).PA ≤ 1) ∧
    (0 ≤ purity_metric truth pred ∧ purity_metric truth pred ≤ 1) ∧
    (0 ≤ purity_metric pred truth ∧ purity_metric pred truth ≤ 1) ∧
    (0 ≤ (collapse_pure_clusters truth pred).2 ∧
      (collapse_pure_clusters truth pred).2 ≤ 1) := by
  have hprec := ratio_bounds (accuratePairs_le_parsedPairs truth pred h.ge)
  have hrec := ratio_bounds (accuratePairs_le_realPairs truth pred h.le)
  have hev : accurateEvents truth pred ≤ truth.length := by
    rw [h]; exact accurateEvents_le_length truth pred
  have hpa := ratio_bounds hev
  have hcov := ratio_bounds
    (List.countP_le_length (fun p => (gtSetOf truth pred p).length = 1) (l := pred))
  refine ⟨?_, ?_, ?_, ?_, purity_bounds truth pred, purity_bounds pred truth, ?_⟩
  · simp only [accuracy_metrics]
    exact f1_bounds hprec.1 hprec.2 hrec.1 hrec.2
  · simp only [accuracy_metrics]
    exact hprec
  · simp only [accuracy_metrics]
    exact hrec
  · simp only [accuracy_metrics]
    exact hpa
  · simp only [collapse_pure_clusters]
    exact hcov

/-- Claim C8, witness at `truth = ["A","B"]`, `pred = ["X","X"]`. -/
theorem metrics_in_unit_interval_witness :
    (0 ≤ (accuracy_metrics ["A", "B"] ["X", "X"]).GA ∧
      (accuracy_metrics ["A", "B"] ["X", "X"]).GA ≤ 1) ∧
    (0 ≤ (collapse_pure_clusters ["A", "B"] ["X", "X"]).2 ∧
      (collapse_pure_clusters ["A", "B"] ["X", "X"]).2 ≤ 1) :=
  ⟨(metrics_in_unit_interval ["A", "B"] ["X", "X"] rfl).1,
   (metrics_in_unit_interval ["A", "B"] ["X", "X"] rfl).2.2.2.2.2.2⟩

/-! ### Counting lemmas for the collapse-monotonicity claim -/

theorem countP_le_imp_rev {α : Type} (p q : α → Bool) :
    ∀ l : List α, (∀ x ∈ l, p x = true → q x = true) →
      l.countP q ≤ l.countP p → ∀ x ∈ l, q x = true → p x = true
  | [], _, _, x, hx, _ => by simp at hx
  | a :: t, himp, hle, x, hx, hq => by
    have himp_t : ∀ y ∈ t, p y = true → q y = true :=
      fun y hy => himp y (List.mem_cons_of_mem _ hy)
    have hmono : t.countP p ≤ t.countP q :=
      List.countP_mono_left (fun y hy hp => himp_t y hy hp)
    rw [List.countP_cons, List.countP_cons] at hle
    by_cases hpa : p a = true
    · have hqa := himp a (List.mem_cons_self a t) hpa
      rw [if_pos hpa, if_pos hqa] at hle
      rcases List.mem_cons.1 hx with rfl | hxt
      · exact hpa
      · exact countP_le_imp_rev p q t himp_t (by omega) x hxt hq
    · by_cases hqa : q a = true
      · rw [if_neg hpa, if_pos hqa] at hle
        omega
      · rw [if_neg hpa, if_neg hqa] at hle
        rcases List.mem_cons.1 hx with rfl | hxt
        · exact absurd hq hqa
        · exact countP_le_imp_rev p q t himp_t (by omega) x hxt hq

theorem countP_zip_snd (g : String) :
    ∀ (keys vals : List String), vals.length ≤ keys.length →
      (keys.zip vals).countP (fun x => x.2 = g) = vals.count g
  | _, [], _ => by simp
  | [], _ :: _, h => by simp at h
  | a :: ks, b :: vs, h => by
    simp only [List.zip_cons_cons, List.countP_cons, List.count_cons,
      countP_zip_snd g ks vs (by simpa using h)]
    by_cases hbg : b = g <;> simp [hbg]

theorem count_map_eq_countP (f : String → String) (l : List String) (m : String) :
    (l.map f).count m = l.countP (fun q => f q = m) := by
  induction l with
  | nil => rfl
  | cons a t ih =>
    simp only [List.map_cons, List.count_cons, List.countP_cons, ih]
    by_cases h : f a = m <;> simp [h]

theorem zip_map_fst (f : String → String) (l₁ l₂ : List String) :
    (l₁.map f).zip l₂ = (l₁.zip l₂).map (fun x => (f x.1, x.2)) := by
  rw [List.zip_map_left]
  refine List.map_congr_left ?_
  rintro ⟨a, b⟩ _
  rfl

/-! ### Pure predicted clusters -/

theorem pure_mem {truth pred : List String} {q g : String}
    (hq : gtSetOf truth pred q = [g]) :
    (q, g) ∈ pred.zip truth ∧ ∀ x ∈ pred.zip truth, x.1 = q → x.2 = g := by
  rcases dedup_eq_singleton_iff.1 hq with ⟨hne, hall⟩
  constructor
  · rcases List.exists_mem_of_ne_nil _ hne with ⟨t, ht⟩
    have hg := hall t ht
    rw [hg] at ht
    exact mem_fiberList.1 ht
  · rintro ⟨a, b⟩ hx h1
    cases h1
    exact hall b (mem_fiberList.2 hx)

theorem collapseLabel_of_pure {truth pred : List String} {p g : String}
    (hpure : gtSetOf truth pred p = [g]) :
    collapseLabel truth pred p = "__PURE__#" ++ g := by
  unfold collapseLabel
  rw [hpure]

theorem collapseLabel_eq_tag_iff {truth pred : List String}
    (hfresh : ∀ q ∈ pred, ∀ s : String, q ≠ "__PURE__#" ++ s)
    {q : String} (hq : q ∈ pred) (g : String) :
    collapseLabel truth pred q = "__PURE__#" ++ g ↔ gtSetOf truth pred q = [g] := by
  unfold collapseLabel
  rcases hgs : gtSetOf truth pred q with _ | ⟨g₁, _ | ⟨x, xs⟩⟩
  · dsimp only
    exact ⟨fun h => absurd h (hfresh q hq g), fun h => by simp at h⟩
  · dsimp only
    constructor
    · intro h
      rw [tag_inj h]
    · intro h
      rw [List.cons.injEq] at h
      rw [h.1]
  · dsimp only
    exact ⟨fun h => absurd h (hfresh q hq g), fun h => by simp at h⟩

theorem complete_pure_rev {truth pred : List String}
    (hlen : truth.length = pred.length) {p g : String}
    (hpure : gtSetOf truth pred p = [g])
    (hcomp : pred.count p = truth.count g) :
    ∀ x ∈ pred.zip truth, x.2 = g → x.1 = p := by
  have hpm := pure_mem hpure
  have himp : ∀ x ∈ pred.zip truth,
      (fun x : String × String => decide (x.1 = p)) x = true →
        (fun x : String × String => decide (x.2 = g)) x = true := by
    intro x hx h
    simp only [decide_eq_true_eq] at h ⊢
    exact hpm.2 x hx h
  have hc1 : (pred.zip truth).countP (fun x => x.1 = p) = pred.count p :=
    countP_zip_fst p pred truth (le_of_eq hlen.symm)
  have hc2 : (pred.zip truth).countP (fun x => x.2 = g) = truth.count g :=
    countP_zip_snd g pred truth (le_of_eq hlen)
  have hle : (pred.zip truth).countP (fun x => x.2 = g) ≤
      (pred.zip truth).countP (fun x => x.1 = p) := by
    rw [hc1, hc2, hcomp]
  intro x hx hxg
  have hres := countP_le_imp_rev _ _ (pred.zip truth) himp hle x hx
    (by simp [hxg])
  simpa using hres

theorem eventContrib_cases (truth pred : List String) (p : String) :
    eventContrib truth pred p = 0 ∨
    ∃ g, gtSetOf truth pred p = [g] ∧ pred.count p = truth.count g ∧
      eventContrib truth pred p = pred.count p := by
  unfold eventContrib gtSetOf
  rcases hd : (fiberList pred truth p).dedup with _ | ⟨g, _ | _⟩
  · exact Or.inl rfl
  · dsimp only
    by_cases hc : pred.count p = truth.count g
    · exact Or.inr ⟨g, rfl, hc, if_pos hc⟩
    · exact Or.inl (if_neg hc)
  · exact Or.inl rfl

theorem merged_fiber_singleton {truth pred : List String}
    (hfresh : ∀ q ∈ pred, ∀ s : String, q ≠ "__PURE__#" ++ s)
    {p g : String} (hpure : gtSetOf truth pred p = [g]) :
    gtSetOf truth (pred.map (collapseLabel truth pred)) ("__PURE__#" ++ g) = [g] := by
  unfold gtSetOf
  rw [dedup_eq_singleton_iff]
  constructor
  · have hpg := (pure_mem hpure).1
    intro hnil
    have hmem : g ∈ fiberList (pred.map (collapseLabel truth pred)) truth
        ("__PURE__#" ++ g) := by
      refine mem_fiberList.2 ?_
      rw [zip_map_fst]
      refine List.mem_map.2 ⟨(p, g), hpg, ?_⟩
      simp [collapseLabel_of_pure hpure]
    rw [hnil] at hmem
    simp at hmem
  · intro t ht
    have hm := mem_fiberList.1 ht
    rw [zip_map_fst] at hm
    rcases List.mem_map.1 hm with ⟨⟨a, b⟩, hx, hxe⟩
    have hx1 : collapseLabel truth pred a = "__PURE__#" ++ g := congrArg Prod.fst hxe
    have hx2 : b = t := congrArg Prod.snd hxe
    have hap : a ∈ pred := (List.of_mem_zip hx).1
    have hapure : gtSetOf truth pred a = [g] :=
      (collapseLabel_eq_tag_iff hfresh hap g).1 hx1
    have hbg : b = g := (pure_mem hapure).2 (a, b) hx rfl
    rw [← hx2, hbg]

theorem merged_count_tag {truth pred : List String}
    (hlen : truth.length = pred.length)
    (hfresh : ∀ q ∈ pred, ∀ s : String, q ≠ "__PURE__#" ++ s)
    {p g : String} (hpure : gtSetOf truth pred p = [g])
    (hcomp : pred.count p = truth.count g) :
    (pred.map (collapseLabel truth pred)).count ("__PURE__#" ++ g) = pred.count p := by
  rw [count_map_eq_countP]
  have hrev := complete_pure_rev hlen hpure hcomp
  have hstep : pred.countP (fun q => collapseLabel truth pred q = "__PURE__#" ++ g) =
      pred.countP (fun q => q = p) := by
    refine List.countP_congr (fun q hq => ?_)
    simp only [decide_eq_true_eq]
    constructor
    · intro hfq
      have hqpure := (collapseLabel_eq_tag_iff hfresh hq g).1 hfq
      exact hrev (q, g) (pure_mem hqpure).1 rfl
    · rintro rfl
      exact collapseLabel_of_pure hpure
  rw [hstep, List.count_eq_countP]
  refine List.countP_congr (fun q hq => ?_)
  simp

theorem eventContrib_merged {truth pred : List String}
    (hlen : truth.length = pred.length)
    (hfresh : ∀ q ∈ pred, ∀ s : String, q ≠ "__PURE__#" ++ s)
    {p g : String} (hpure : gtSetOf truth pred p = [g])
    (hcomp : pred.count p = truth.count g) :
    eventContrib truth (pred.map (collapseLabel truth pred)) ("__PURE__#" ++ g) =
      pred.count p := by
  have hfib := merged_fiber_singleton hfresh hpure
  have hcnt := merged_count_tag hlen hfresh hpure hcomp
  unfold gtSetOf at hfib
  unfold eventContrib
  rw [hfib]
  dsimp only
  rw [hcnt, if_pos hcomp]

theorem accurateEvents_le_collapse (truth pred : List String)
    (hlen : truth.length = pred.length)
    (hfresh : ∀ q ∈ pred, ∀ s : String, q ≠ "__PURE__#" ++ s) :
    accurateEvents truth pred ≤
      accurateEvents truth (pred.map (collapseLabel truth pred)) := by
  classical
  set f := collapseLabel truth pred with hf
  set merged := pred.map f with hm
  set T := pred.toFinset.filter (fun p => eventContrib truth pred p ≠ 0) with hT
  have hfacts : ∀ p ∈ T, ∃ g, gtSetOf truth pred p = [g] ∧
      pred.count p = truth.count g ∧ eventContrib truth pred p = pred.count p := by
    intro p hp
    rcases Finset.mem_filter.1 hp with ⟨_, hnz⟩
    rcases eventContrib_cases truth pred p with h0 | hex
    · exact absurd h0 hnz
    · exact hex
  have h1 : accurateEvents truth pred = ∑ p ∈ T, eventContrib truth pred p := by
    unfold accurateEvents
    rw [sum_map_dedup_eq_sum_toFinset, hT]
    exact (Finset.sum_filter_ne_zero _).symm
  have h2 : ∀ p ∈ T, eventContrib truth pred p = eventContrib truth merged (f p) := by
    intro p hp
    rcases hfacts p hp with ⟨g, hpure, hcomp, heq⟩
    rw [heq, hf, collapseLabel_of_pure hpure, hm]
    exact (eventContrib_merged hlen hfresh hpure hcomp).symm
  have hinj : ∀ p₁ ∈ T, ∀ p₂ ∈ T, f p₁ = f p₂ → p₁ = p₂ := by
    intro p₁ h₁ p₂ h₂ hfe
    rcases hfacts p₁ h₁ with ⟨g₁, hpure₁, hcomp₁, _⟩
    rcases hfacts p₂ h₂ with ⟨g₂, hpure₂, _, _⟩
    rw [hf, collapseLabel_of_pure hpure₁, collapseLabel_of_pure hpure₂] at hfe
    have hg : g₁ = g₂ := tag_inj hfe
    subst hg
    have hrev := complete_pure_rev hlen hpure₁ hcomp₁
    exact (hrev (p₂, g₁) (pure_mem hpure₂).1 rfl).symm
  have hsub : T.image f ⊆ merged.toFinset := by
    intro m hmem
    rcases Finset.mem_image.1 hmem with ⟨p, hp, rfl⟩
    have hpm : p ∈ pred := List.mem_toFinset.1 (Finset.mem_filter.1 hp).1
    exact List.mem_toFinset.2 (List.mem_map_of_mem f hpm)
  calc accurateEvents truth pred
      = ∑ p ∈ T, eventContrib truth pred p := h1
    _ = ∑ p ∈ T, eventContrib truth merged (f p) := Finset.sum_congr rfl h2
    _ = ∑ m ∈ T.image f, eventContrib truth merged m := (Finset.sum_image hinj).symm
    _ ≤ ∑ m ∈ merged.toFinset, eventContrib truth merged m :=
        Finset.sum_le_sum_of_subset hsub
    _ = accurateEvents truth merged := by
        unfold accurateEvents
        rw [sum_map_dedup_eq_sum_toFinset]

/-- Claim C5, counterexample: PA can strictly decrease after collapsing.
With `truth = ["A","A","B","C"]` and
`pred = ["M","M","__PURE__#A","__PURE__#A"]` the pure, complete cluster
`M` (PA contribution 2, PA = 1/2) is relabeled to `"__PURE__#A"`, which
collides with the retained mixed cluster of the same literal name; the
union is no longer pure, so PA of the merged prediction is 0. -/
theorem collapse_PA_not_monotone :
    (accuracy_metrics ["A", "A", "B", "C"] ["M", "M", "__PURE__#A", "__PURE__#A"]).PA =
      1 / 2 ∧
    (accuracy_metrics ["A", "A", "B", "C"]
      (collapse_pure_clusters ["A", "A", "B", "C"]
        ["M", "M", "__PURE__#A", "__PURE__#A"]).1).PA = 0 ∧
    ¬((accuracy_metrics ["A", "A", "B", "C"]
        (collapse_pure_clusters ["A", "A", "B", "C"]
          ["M", "M", "__PURE__#A", "__PURE__#A"]).1).PA ≥
      (accuracy_metrics ["A", "A", "B", "C"]
        ["M", "M", "__PURE__#A", "__PURE__#A"]).PA) := by
  have hc : (collapse_pure_clusters ["A", "A", "B", "C"]
      ["M", "M", "__PURE__#A", "__PURE__#A"]).1 =
      ["__PURE__#A", "__PURE__#A", "__PURE__#A", "__PURE__#A"] := by decide
  have he : accurateEvents ["A", "A", "B", "C"] ["M", "M", "__PURE__#A", "__PURE__#A"] =
      2 := by decide
  have he0 : accurateEvents ["A", "A", "B", "C"]
      ["__PURE__#A", "__PURE__#A", "__PURE__#A", "__PURE__#A"] = 0 := by decide
  have h1 : (accuracy_metrics ["A", "A", "B", "C"]
      ["M", "M", "__PURE__#A", "__PURE__#A"]).PA = 1 / 2 := by
    simp only [accuracy_metrics, he]
    norm_num
  have h2 : (accuracy_metrics ["A", "A", "B", "C"]
      (collapse_pure_clusters ["A", "A", "B", "C"]
        ["M", "M", "__PURE__#A", "__PURE__#A"]).1).PA = 0 := by
    rw [hc]
    simp only [accuracy_metrics, he0]
    norm_num
  refine ⟨h1, h2, ?_⟩
  rw [h1, h2]
  norm_num

/-- Claim C5, amended: for equal-length `truth` and `pred` in which no
predicted label carries the `"__PURE__#"` discriminator as a prefix (so
a merged label cannot collide with a retained mixed label),
`accuracy_metrics(truth, merged_pred).PA >= accuracy_metrics(truth, pred).PA`;
without that proviso the inequality can fail (see the counterexample). -/
theorem collapse_PA_monotone (truth pred : List String)
    (hlen : truth.length = pred.length)
    (hfresh : ∀ q ∈ pred, ∀ s : String, q ≠ "__PURE__#" ++ s) :
    (accuracy_metrics truth (collapse_pure_clusters truth pred).1).PA ≥
      (accuracy_metrics truth pred).PA := by
  have hev := accurateEvents_le_collapse truth pred hlen hfresh
  simp only [accuracy_metrics, collapse_pure_clusters]
  by_cases h0 : truth.length = 0
  · rw [if_pos h0, if_pos h0]
  · rw [if_neg h0, if_neg h0, ge_iff_le]
    have hq : (0 : ℚ) < (truth.length : ℚ) := by
      exact_mod_cast Nat.pos_of_ne_zero h0
    have hcast : (accurateEvents truth pred : ℚ) ≤
        (accurateEvents truth (pred.map (collapseLabel truth pred)) : ℚ) := by
      exact_mod_cast hev
    exact div_le_div_of_nonneg_right hcast hq.le

/-- Claim C5, witness for the amended theorem at
`truth = ["A","A","B"]`, `pred = ["X","Y","Y"]`. -/
theorem collapse_PA_monotone_witness :
    (accuracy_metrics ["A", "A", "B"]
      (collapse_pure_clusters ["A", "A", "B"] ["X", "Y", "Y"]).1).PA ≥
      (accuracy_metrics ["A", "A", "B"] ["X", "Y", "Y"]).PA :=
  collapse_PA_monotone ["A", "A", "B"] ["X", "Y", "Y"] rfl
    (fun q hq => ne_tag_of_short (by fin_cases hq <;> decide))

end LogParser
